import Mathlib

/-!
Shallow embedding of `crates/polars-parquet/src/arrow/read/deserialize/nested_utils.rs`:
the repetition/definition-level reconstruction of nested (list/struct) columns.

Modelling conventions:
* The five `Nested` trait implementors become one closed inductive `Nested`
  (the set of variants is fixed by the schema grammar); the trait methods
  (`push`, `len`, `num_values`, `is_nullable`, `is_repeated`, `is_required`)
  become total functions on it, translated case by case from each impl.
* Machine integers: `usize`/`u32` levels and counts are `Nat`; the `i64`
  offsets stored by list trackers are `Int` (pushed values are small
  non-negative lengths, far from any `i64` overflow).
* `Vec`/`VecDeque`/`MutableBitmap` are `List`s; `VecDeque` front is the list
  head, back is the last element.
* Fallible Rust code returns `Except RError`; a Rust panic (the
  `peek().unwrap()` on an exhausted iterator, an out-of-bounds unchecked
  access, the `pop_front().unwrap()`) is modelled as the distinguished error
  `RError.crash`, and `polars_bail!(ComputeError: ...)` as `RError.compute`.
  The driver loop in `extend` is not structurally terminating (it hangs for
  `chunk_size = Some 0`), so it runs on fuel and returns `RError.diverge`
  when the fuel is exhausted; `extend` supplies fuel that suffices for every
  terminating configuration.
* The zipped `Peekable<Zip<HybridRleDecoder, HybridRleDecoder>>` becomes
  `NestedPage`: the list of pairs the streams actually yield plus the
  `declared` count that `len()` (the `size_hint`) reports. A well-formed page
  has `declared = pairs.length`; `declared > pairs.length` models the
  fallible decoders erroring out early (their `next` returns `None` while the
  size hint still reports remaining values, as the source comments describe).
-/

namespace NestedUtils

/-- Error outcomes of the Rust code: `compute` is `polars_bail!(ComputeError)`,
`crash` is a panic (`unwrap` on `None` / out-of-bounds unchecked access), and
`diverge` is fuel exhaustion of the non-terminating driver loop. -/
inductive RError where
  | compute (msg : String)
  | crash
  | diverge
deriving Repr, DecidableEq

/-- The closed union of the five `Nested` trait implementors, each carrying its
state: `NestedPrimitive { is_nullable, length }`, `NestedOptional { validity,
offsets }`, `NestedValid { offsets }`, `NestedStructValid { length }`,
`NestedStruct { validity }`. -/
inductive Nested where
  | primitive (is_nullable : Bool) (length : Nat)
  | optional (validity : List Bool) (offsets : List Int)
  | valid (offsets : List Int)
  | structValid (length : Nat)
  | structOpt (validity : List Bool)
deriving Repr, DecidableEq

namespace Nested

/-- `Nested::push` of each impl: primitives and non-null structs count,
lists append an offset (and optionally a validity bit), nullable structs
append a validity bit. -/
def push : Nested → Int → Bool → Nested
  | primitive n l, _, _ => primitive n (l + 1)
  | optional v o, value, is_valid => optional (v ++ [is_valid]) (o ++ [value])
  | valid o, value, _ => valid (o ++ [value])
  | structValid l, _, _ => structValid (l + 1)
  | structOpt v, _, is_valid => structOpt (v ++ [is_valid])

/-- `Nested::is_nullable` of each impl. -/
def is_nullable : Nested → Bool
  | primitive n _ => n
  | optional _ _ => true
  | valid _ => false
  | structValid _ => false
  | structOpt _ => true

/-- `Nested::is_repeated`: true for the two list trackers only. -/
def is_repeated : Nested → Bool
  | primitive _ _ => false
  | optional _ _ => true
  | valid _ => true
  | structValid _ => false
  | structOpt _ => false

/-- `Nested::is_required`: true for the two struct trackers only. -/
def is_required : Nested → Bool
  | primitive _ _ => false
  | optional _ _ => false
  | valid _ => false
  | structValid _ => true
  | structOpt _ => true

/-- `Nested::len` of each impl. -/
def len : Nested → Nat
  | primitive _ l => l
  | optional _ o => o.length
  | valid o => o.length
  | structValid l => l
  | structOpt v => v.length

/-- `Nested::num_values` of each impl (for list trackers: the last offset,
or 0 when empty). -/
def num_values : Nested → Nat
  | primitive _ l => l
  | optional _ o => (o.getLast?.getD 0).toNat
  | valid o => (o.getLast?.getD 0).toNat
  | structValid l => l
  | structOpt v => v.length

end Nested

/-- `InitNested`: the per-level schema descriptor. -/
inductive InitNested where
  | primitive (is_nullable : Bool)
  | list (is_nullable : Bool)
  | struct (is_nullable : Bool)
deriving Repr, DecidableEq

/-- The tracker `init_nested` builds for one schema unit (capacity hints only
affect allocation and are dropped). -/
def initNestedOne : InitNested → Nested
  | .primitive n => .primitive n 0
  | .list true => .optional [] []
  | .list false => .valid []
  | .struct true => .structOpt []
  | .struct false => .structValid 0

/-- `init_nested`: one fresh tracker per schema unit, root to leaf. -/
def init_nested (init : List InitNested) : List Nested :=
  init.map initNestedOne

/-- A dictionary page: the decoder consumes its raw bytes; we keep the decoded
distinct values. -/
structure DictPage where
  values : List Nat
deriving Repr, DecidableEq

/-- A data page: the two level streams (already decoded to pairs by the
external `HybridRleDecoder`s), the declared value count `num_values`, and the
leaf value stream. -/
structure DataPage where
  pairs : List (Nat × Nat)
  declared : Nat
  values : List Nat
deriving Repr, DecidableEq

/-- A page yielded by the pages iterator. -/
inductive Page where
  | data (p : DataPage)
  | dict (d : DictPage)
deriving Repr, DecidableEq

/-- `NestedPage`: the peekable zipped level-pair source. `pairs` are the pairs
the underlying streams will actually yield; `declared` is what
`iter.len()` (the size hint) reports. For a well-formed page
`declared = pairs.length`. -/
structure NestedPage where
  pairs : List (Nat × Nat)
  declared : Nat
deriving Repr, DecidableEq

/-- `NestedPage::try_new`: wrap the page's level streams (their construction
errors concern byte-buffer splitting, outside this model). -/
def NestedPage.try_new (p : DataPage) : NestedPage :=
  { pairs := p.pairs, declared := p.declared }

/-- `NestedPage::len`: the size hint of the zipped iterator. -/
def NestedPage.len (p : NestedPage) : Nat :=
  p.declared

/-- The `NestedDecoder` trait: page-state construction, the decoded
accumulator, and the two leaf pushes. -/
structure NestedDecoder (St Dec Dict : Type) where
  build_state : DataPage → Option Dict → Except RError St
  with_capacity : Nat → Dec
  push_valid : St → Dec → Except RError (St × Dec)
  push_null : Dec → Dec
  deserialize_dict : DictPage → Dict

/-- A concrete leaf decoder used for concrete runs: the page state is the
remaining leaf value stream, the accumulator the list of materialized
values (`none` = null). `push_valid` on an exhausted stream is the decode
error of error kind (c) in the spec. -/
def streamDecoder : NestedDecoder (List Nat) (List (Option Nat)) (List Nat) where
  build_state p _ := .ok p.values
  with_capacity _ := []
  push_valid st dec :=
    match st with
    | [] => .error (.compute "values stream exhausted")
    | v :: rest => .ok (rest, dec ++ [some v])
  push_null dec := dec ++ [none]
  deserialize_dict dp := dp.values

/-- The definition-level delta of one tracker:
`is_nullable as u32 + is_repeated as u32`. -/
def sumDelta (nest : Nested) : Nat :=
  (cond nest.is_nullable 1 0) + (cond nest.is_repeated 1 0)

/-- The repetition-level delta of one tracker: `is_repeated as u32`. -/
def repDelta (nest : Nested) : Nat :=
  cond nest.is_repeated 1 0

/-- The `cum_sum` array of `extend_offsets2`: prefix sums of `sumDelta`,
indexed by depth `0..=max_depth`. -/
def cum_sum (nested : List Nested) : List Nat :=
  (nested.map sumDelta).scanl (· + ·) 0

/-- The `cum_rep` array of `extend_offsets2`: prefix sums of `repDelta`. -/
def cum_rep (nested : List Nested) : List Nat :=
  (nested.map repDelta).scanl (· + ·) 0

/-- The `length` pushed at a depth: the next deeper tracker's `len`, or 1 at
the leaf (`nested.get(depth + 1).map(|x| x.len() as i64).unwrap_or(1)`). -/
def childLen (nested : List Nested) (depth : Nat) : Int :=
  match nested.get? (depth + 1) with
  | some x => (x.len : Int)
  | none => 1

/-- The body of the `for depth in 0..max_depth` loop of `extend_offsets2`,
walking one consumed `(rep, def)` pair down the trackers. `fuel` is the
number of remaining iterations (`max_depth` at depth 0); `is_required`
carries the required-after-null propagation flag between depths. The
`nested.get? depth = none` case models the out-of-bounds unchecked access
(never reached: the walk is entered with `fuel = max_depth = nested.length`). -/
def walkDepths (D : NestedDecoder St Dec Dict) (cs cr : List Nat)
    (rep defl max_depth : Nat) :
    Nat → Nat → Bool → St → List Nested → Dec →
    Except RError (St × List Nested × Dec)
  | 0, _, _, st, nested, decoded => .ok (st, nested, decoded)
  | fuel + 1, depth, is_required, st, nested, decoded =>
    let right_level := decide (rep ≤ cr.getD depth 0) && decide (cs.getD depth 0 ≤ defl)
    if is_required || right_level then
      let length := childLen nested depth
      match nested.get? depth with
      | none => .error .crash
      | some nest =>
        let is_valid := nest.is_nullable && decide (cs.getD depth 0 < defl)
        let nested' := nested.set depth (nest.push length is_valid)
        let is_required' := nest.is_required && !is_valid
        if depth = max_depth - 1 then
          let leaf_is_valid := !(decide (defl = cs.getD depth 0)) || !nest.is_nullable
          if right_level && leaf_is_valid then
            match D.push_valid st decoded with
            | .error e => .error e
            | .ok (st', decoded') =>
              walkDepths D cs cr rep defl max_depth fuel (depth + 1) is_required' st' nested' decoded'
          else
            walkDepths D cs cr rep defl max_depth fuel (depth + 1) is_required' st nested' (D.push_null decoded)
        else
          walkDepths D cs cr rep defl max_depth fuel (depth + 1) is_required' st nested' decoded
    else
      walkDepths D cs cr rep defl max_depth fuel (depth + 1) is_required st nested decoded

/-- The main loop of `extend_offsets2`, structurally recursive on the pairs the
level streams will yield. Per iteration: peek (`[]` panics: the
`peek().unwrap()`); on a repetition level of 0, return `true` without
consuming once `rows` reaches `additional`, else count the row; consume the
pair (the `let Some .. else polars_bail!` fallback is unreachable here, since
the successful peek already pinned the next item); walk the depths; stop with
`false` when `iter.len()` reports 0. -/
def extendOffsets2Loop (D : NestedDecoder St Dec Dict) (max_depth : Nat)
    (cs cr : List Nat) (additional : Nat) :
    List (Nat × Nat) → Nat → Nat → St → List Nested → Dec →
    Except RError (Bool × NestedPage × St × List Nested × Dec)
  | [], _, _, _, _, _ => .error .crash
  | (rep, defl) :: rest, declared, rows, st, nested, decoded =>
    if rep = 0 ∧ rows = additional then
      .ok (true, ⟨(rep, defl) :: rest, declared⟩, st, nested, decoded)
    else
      let rows' := if rep = 0 then rows + 1 else rows
      match walkDepths D cs cr rep defl max_depth max_depth 0 false st nested decoded with
      | .error e => .error e
      | .ok (st', nested', decoded') =>
        if declared - 1 = 0 then
          .ok (false, ⟨rest, declared - 1⟩, st', nested', decoded')
        else
          extendOffsets2Loop D max_depth cs cr additional rest (declared - 1) rows' st' nested' decoded'

/-- `extend_offsets2`: size the cumulative arrays from the trackers' capability
flags, then run the main loop with `rows = 0`. -/
def extend_offsets2 (D : NestedDecoder St Dec Dict) (page : NestedPage)
    (values_state : St) (nested : List Nested) (decoded : Dec)
    (additional : Nat) :
    Except RError (Bool × NestedPage × St × List Nested × Dec) :=
  extendOffsets2Loop D nested.length (cum_sum nested) (cum_rep nested) additional
    page.pairs page.declared 0 values_state nested decoded

/-- `NestedState::len`: the outermost tracker's row count (`nested[0].len()`;
indexing an empty schema would panic in Rust — unreachable, `init` is never
empty). -/
def NestedState.len (nested : List Nested) : Nat :=
  match nested.head? with
  | some n => n.len
  | none => 0

/-- `chunk_size.unwrap_or(usize::MAX)` with a 64-bit `usize`. -/
def USIZE_MAX : Nat := 2 ^ 64 - 1

/-- The chunk size actually applied by `extend`. -/
def chunkSizeVal (chunk_size : Option Nat) : Nat :=
  chunk_size.getD USIZE_MAX

/-- The `loop` of `extend`, on fuel (the Rust loop hangs for
`chunk_size = Some 0`). Per iteration: pop the back chunk if any, extend it
by up to `min(chunk_size - existing, remaining)` rows, push it back, stop
when the page is drained or the budget is met; otherwise (or when the queue
was empty) start a fresh chunk and continue. On an error from
`extend_offsets2` the popped chunk is dropped, as in the source (`?` fires
before the `push_back`). -/
def extendLoop (D : NestedDecoder St Dec Dict) (init : List InitNested)
    (chunk_size : Option Nat) :
    Nat → Bool → List (List Nested × Dec) → Nat → NestedPage → St →
    (Except RError Bool) × List (List Nested × Dec) × Nat
  | 0, _, items, remaining, _, _ => (.error .diverge, items, remaining)
  | fuel + 1, first_read, items, remaining, page, st =>
    match items.getLast? with
    | some (nested, decoded) =>
      let items₀ := items.dropLast
      let existing := NestedState.len nested
      let additional := min (chunkSizeVal chunk_size - existing) remaining
      match extend_offsets2 D page st nested decoded additional with
      | .error e => (.error e, items₀, remaining)
      | .ok (is_fully_read, page', st', nested', decoded') =>
        let first_read' := first_read || is_fully_read
        let remaining' := remaining - (NestedState.len nested' - existing)
        let items₁ := items₀ ++ [(nested', decoded')]
        if page'.len = 0 then
          (.ok first_read', items₁, remaining')
        else if is_fully_read && decide (remaining' = 0) then
          (.ok first_read', items₁, remaining')
        else
          extendLoop D init chunk_size fuel first_read'
            (items₁ ++ [(init_nested init, D.with_capacity 0)]) remaining' page' st'
    | none =>
      extendLoop D init chunk_size fuel first_read
        (items ++ [(init_nested init, D.with_capacity 0)]) remaining page st

/-- `extend`: build the page's decode state and level-pair source, then run the
driver loop. The returned triple is (result flag or error, queue, remaining):
the queue and the remaining-row counter are `&mut` in Rust, so they survive
an error. The fuel `pairs.length + 2` covers every terminating configuration
(each iteration past the first consumes at least one pair when
`chunk_size ≠ Some 0`). -/
def extend (D : NestedDecoder St Dec Dict) (page : DataPage)
    (init : List InitNested) (items : List (List Nested × Dec))
    (dict : Option Dict) (remaining : Nat) (chunk_size : Option Nat) :
    (Except RError Bool) × List (List Nested × Dec) × Nat :=
  match D.build_state page dict with
  | .error e => (.error e, items, remaining)
  | .ok values_page =>
    extendLoop D init chunk_size (page.pairs.length + 2) false items remaining
      (NestedPage.try_new page) values_page

/-- `MaybeNext`: the three-way result of the pull operation. -/
inductive MaybeNext (α : Type) where
  | some (x : α)
  | more
  | none
deriving Repr

/-- The state the pull operation `next` threads through calls: the pages
iterator, the pending-chunk queue (front first), the dictionary state and the
remaining-row budget. -/
structure PullState (Dec Dict : Type) where
  pages : List (Except RError Page)
  items : List (List Nested × Dec)
  dict : Option Dict
  remaining : Nat

/-- The pull operation `next`: pop the front chunk if more than one is queued;
otherwise pull one page — end of input yields the last chunk if any, an
iterator error is surfaced, a dictionary page repopulates the dictionary
state and asks for more pages, and a data page is fed to `extend` (a
completed front chunk is popped, `pop_front().unwrap()` on an empty queue
would panic). -/
def next (D : NestedDecoder St Dec Dict) (init : List InitNested)
    (chunk_size : Option Nat) (s : PullState Dec Dict) :
    MaybeNext (Except RError (List Nested × Dec)) × PullState Dec Dict :=
  match s.items with
  | it₁ :: it₂ :: restI => (.some (.ok it₁), { s with items := it₂ :: restI })
  | _ =>
    match s.pages with
    | [] =>
      match s.items with
      | it :: restI => (.some (.ok it), { s with items := restI })
      | [] => (.none, s)
    | (.error e) :: restP => (.some (.error e), { s with pages := restP })
    | (.ok (Page.dict dp)) :: restP =>
      (.more, { s with pages := restP, dict := some (D.deserialize_dict dp) })
    | (.ok (Page.data p)) :: restP =>
      match extend D p init s.items s.dict s.remaining chunk_size with
      | (.ok true, items', remaining') =>
        match items' with
        | it :: restI => (.some (.ok it), ⟨restP, restI, s.dict, remaining'⟩)
        | [] => (.some (.error .crash), ⟨restP, [], s.dict, remaining'⟩)
      | (.ok false, items', remaining') => (.more, ⟨restP, items', s.dict, remaining'⟩)
      | (.error e, items', remaining') => (.some (.error e), ⟨restP, items', s.dict, remaining'⟩)

/-! ### Auxiliary definitions for stating the invariants -/

/-- The offsets stored by a tracker (empty for the non-repeated ones). -/
def offsetsOf : Nested → List Int
  | .optional _ o => o
  | .valid o => o
  | _ => []

/-- The static capability flags of a tracker:
(`is_nullable`, `is_repeated`, `is_required`). -/
def flags (n : Nested) : Bool × Bool × Bool :=
  (n.is_nullable, n.is_repeated, n.is_required)

/-- The per-tracker invariant at depth `d`: offsets are non-decreasing and the
last offset does not exceed the child count the next push would record. -/
def trackerInv (nested : List Nested) (d : Nat) (n : Nested) : Prop :=
  List.Chain' (· ≤ ·) (offsetsOf n) ∧
  ∀ v, (offsetsOf n).getLast? = some v → v ≤ childLen nested d

/-- The whole-state invariant of claim C9. -/
def InvNested (nested : List Nested) : Prop :=
  ∀ d n, nested.get? d = some n → trackerInv nested d n

/-! ### Basic lemmas about trackers -/

theorem push_flags (n : Nested) (v : Int) (b : Bool) : flags (n.push v b) = flags n := by
  cases n <;> rfl

theorem push_len (n : Nested) (v : Int) (b : Bool) : (n.push v b).len = n.len + 1 := by
  cases n <;> simp [Nested.push, Nested.len]

theorem push_offsets (n : Nested) (v : Int) (b : Bool) :
    offsetsOf (n.push v b) = offsetsOf n ∨ offsetsOf (n.push v b) = offsetsOf n ++ [v] := by
  cases n
  · exact Or.inl rfl
  · exact Or.inr rfl
  · exact Or.inr rfl
  · exact Or.inl rfl
  · exact Or.inl rfl

theorem flags_eq_is_nullable {a b : Nested} (h : flags a = flags b) :
    a.is_nullable = b.is_nullable := congrArg Prod.fst h

theorem map_set_of_eq {α β : Type} (f : α → β) :
    ∀ (l : List α) (i : Nat) (x y : α), l.get? i = some x → f y = f x →
      (l.set i y).map f = l.map f := by
  intro l
  induction l with
  | nil => intro i x y h _; simp at h
  | cons a t ih =>
    intro i x y h hf
    cases i with
    | zero =>
      simp only [List.get?] at h
      cases h
      simp [List.set, hf]
    | succ j =>
      simp only [List.get?] at h
      simp [List.set, ih j x y h hf]

/-! ### The master lemma about one depth walk

`walkDepths` changes each tracker at most once: a tracker either stays as it
was or receives exactly one `push` whose offset argument is the child count
taken from the walk's entry state, and whose validity bit is the one line 494
computes. Trackers strictly above the walk's starting depth are untouched. -/

theorem walkDepths_master (D : NestedDecoder St Dec Dict) (cs cr : List Nat)
    (rep defl md : Nat) :
    ∀ (fuel depth : Nat) (req : Bool) (st : St) (nested : List Nested) (decoded : Dec)
      (st' : St) (nested' : List Nested) (decoded' : Dec),
      walkDepths D cs cr rep defl md fuel depth req st nested decoded
        = .ok (st', nested', decoded') →
      nested'.length = nested.length ∧
      nested'.map flags = nested.map flags ∧
      (∀ i, i < depth → nested'.get? i = nested.get? i) ∧
      (∀ i a b, nested.get? i = some a → nested'.get? i = some b →
        b = a ∨ b = a.push (childLen nested i)
          (a.is_nullable && decide (cs.getD i 0 < defl))) := by
  intro fuel
  induction fuel with
  | zero =>
    intro depth req st nested decoded st' nested' decoded' h
    simp only [walkDepths] at h
    obtain ⟨rfl, rfl, rfl⟩ : st = st' ∧ nested = nested' ∧ decoded = decoded' := by
      cases h; exact ⟨rfl, rfl, rfl⟩
    refine ⟨rfl, rfl, fun i _ => rfl, fun i a b ha hb => ?_⟩
    rw [ha] at hb; cases hb; exact Or.inl rfl
  | succ fuel ih =>
    intro depth req st nested decoded st' nested' decoded' h
    simp only [walkDepths] at h
    split at h
    case isTrue =>
      -- the tracker at this depth is pushed
      split at h
      case h_1 => cases h
      case h_2 nest hget =>
        have hlt : depth < nested.length := (List.get?_eq_some.mp hget).1
        -- the three sub-branches all recurse on the same updated state
        have hstep :
            ∃ st₁ decoded₁,
              walkDepths D cs cr rep defl md fuel (depth + 1)
                (nest.is_required && !(nest.is_nullable && decide (cs.getD depth 0 < defl)))
                st₁
                (nested.set depth (nest.push (childLen nested depth)
                  (nest.is_nullable && decide (cs.getD depth 0 < defl))))
                decoded₁
              = .ok (st', nested', decoded') := by
          split at h
          · split at h
            · split at h
              · cases h
              · exact ⟨_, _, h⟩
            · exact ⟨_, _, h⟩
          · exact ⟨_, _, h⟩
        obtain ⟨st₁, decoded₁, hrec⟩ := hstep
        obtain ⟨c1, c2, c3, c4⟩ := ih _ _ _ _ _ _ _ _ hrec
        set V := nest.is_nullable && decide (cs.getD depth 0 < defl) with hV
        set L := childLen nested depth with hL
        set nested₁ := nested.set depth (nest.push L V) with hn1
        refine ⟨?_, ?_, ?_, ?_⟩
        · rw [c1, hn1, List.length_set]
        · rw [c2, hn1,
            map_set_of_eq flags nested depth nest (nest.push L V) hget (push_flags nest L V)]
        · intro i hi
          rw [c3 i (Nat.lt_succ_of_lt hi), hn1,
            List.get?_set_ne _ _ (Nat.ne_of_gt hi)]
        · intro i a b ha hb
          rcases Nat.lt_trichotomy i depth with hilt | rfl | higt
          · -- untouched below the walk's current depth
            have := c3 i (Nat.lt_succ_of_lt hilt)
            rw [this, hn1, List.get?_set_ne _ _ (Nat.ne_of_gt hilt), ha] at hb
            cases hb; exact Or.inl rfl
          · -- the tracker pushed at this step
            have ha' : a = nest := by rw [ha] at hget; cases hget; rfl
            have h1 : nested₁.get? i = some (nest.push L V) := by
              rw [hn1]; exact List.get?_set_eq_of_lt _ hlt
            have := c3 i (Nat.lt_succ_self i)
            rw [this, h1] at hb
            cases hb
            exact Or.inr (by rw [ha'])
          · -- above this step: relate through the recursive call
            have hne : depth ≠ i := Nat.ne_of_lt higt
            have ha1 : nested₁.get? i = some a := by
              rw [hn1, List.get?_set_ne _ _ hne]; exact ha
            rcases c4 i a b ha1 hb with hb' | hb'
            · exact Or.inl hb'
            · refine Or.inr ?_
              have hch : childLen nested₁ i = childLen nested i := by
                rw [hn1]
                unfold childLen
                rw [List.get?_set_ne _ _ (by omega : depth ≠ i + 1)]
              rw [hb', hch]
    case isFalse =>
      -- this depth is skipped
      obtain ⟨c1, c2, c3, c4⟩ := ih _ _ _ _ _ _ _ _ h
      exact ⟨c1, c2, fun i hi => c3 i (Nat.lt_succ_of_lt hi), c4⟩

/-- The walk never reaches the modelled out-of-bounds panic when it is entered
with at most `nested.length` iterations left (as `extend_offsets2` does), and
the decoder's valid-push itself never panics. -/
theorem walkDepths_no_crash (D : NestedDecoder St Dec Dict)
    (hD : ∀ st dec, D.push_valid st dec ≠ .error .crash)
    (cs cr : List Nat) (rep defl md : Nat) :
    ∀ (fuel depth : Nat) (req : Bool) (st : St) (nested : List Nested) (decoded : Dec),
      depth + fuel ≤ nested.length →
      walkDepths D cs cr rep defl md fuel depth req st nested decoded ≠ .error .crash := by
  intro fuel
  induction fuel with
  | zero =>
    intro depth req st nested decoded _ h
    simp only [walkDepths] at h
    exact Except.noConfusion h
  | succ fuel ih =>
    intro depth req st nested decoded hbound h
    simp only [walkDepths] at h
    split at h
    case isTrue =>
      split at h
      case h_1 hnone =>
        have : nested.length ≤ depth := List.get?_eq_none.mp hnone
        omega
      case h_2 nest hget =>
        have hlen : ((nested.set depth (nest.push (childLen nested depth)
            (nest.is_nullable && decide (cs.getD depth 0 < defl)))).length)
            = nested.length := List.length_set ..
        split at h
        · split at h
          · split at h
            case h_1 e heq =>
              cases h
              exact hD _ _ heq
            case h_2 heq =>
              exact ih _ _ _ _ _ (by omega) h
          · exact ih _ _ _ _ _ (by omega) h
        · exact ih _ _ _ _ _ (by omega) h
    case isFalse =>
      exact ih _ _ _ _ _ (by omega) h

/-- Above the leaf depth the walk does not touch the decoded accumulator. -/
theorem walkDepths_no_push_of_gt (D : NestedDecoder St Dec Dict)
    (cs cr : List Nat) (rep defl md : Nat) :
    ∀ (fuel depth : Nat) (req : Bool) (st : St) (nested : List Nested) (decoded : Dec)
      (st' : St) (nested' : List Nested) (decoded' : Dec),
      md - 1 < depth →
      walkDepths D cs cr rep defl md fuel depth req st nested decoded
        = .ok (st', nested', decoded') →
      decoded' = decoded := by
  intro fuel
  induction fuel with
  | zero =>
    intro depth req st nested decoded st' nested' decoded' _ h
    simp only [walkDepths] at h
    cases h; rfl
  | succ fuel ih =>
    intro depth req st nested decoded st' nested' decoded' hd h
    simp only [walkDepths] at h
    split at h
    case isTrue =>
      split at h
      case h_1 => cases h
      case h_2 nest hget =>
        split at h
        case isTrue hleaf => omega
        case isFalse => exact ih _ _ _ _ _ _ _ _ (by omega) h
    case isFalse =>
      exact ih _ _ _ _ _ _ _ _ (by omega) h

/-- `streamDecoder.push_valid` appends exactly one element on success. -/
theorem streamDecoder_push_valid_len (st : List Nat) (decoded : List (Option Nat))
    (st₁ : List Nat) (decoded₁ : List (Option Nat))
    (h : streamDecoder.push_valid st decoded = .ok (st₁, decoded₁)) :
    decoded₁.length = decoded.length + 1 := by
  cases st with
  | nil => simp [streamDecoder] at h
  | cons v r =>
    simp only [streamDecoder] at h
    cases h
    simp

/-- Claim C2, amended: per consumed level pair, AT MOST one leaf push occurs
(one `push_valid` or one `push_null` when the depth walk reaches the leaf
depth via `right_level` or required-propagation), and possibly none (e.g. a
null or empty list consumes a pair without touching the leaf decoder): one
walk grows the leaf accumulator by zero or one entries. -/
theorem claim_C2_amended (cs cr : List Nat) (rep defl md : Nat) :
    ∀ (fuel depth : Nat) (req : Bool) (st : List Nat) (nested : List Nested)
      (decoded : List (Option Nat)) (st' : List Nat) (nested' : List Nested)
      (decoded' : List (Option Nat)),
      walkDepths streamDecoder cs cr rep defl md fuel depth req st nested decoded
        = .ok (st', nested', decoded') →
      decoded'.length = decoded.length ∨ decoded'.length = decoded.length + 1 := by
  intro fuel
  induction fuel with
  | zero =>
    intro depth req st nested decoded st' nested' decoded' h
    simp only [walkDepths] at h
    cases h; exact Or.inl rfl
  | succ fuel ih =>
    intro depth req st nested decoded st' nested' decoded' h
    simp only [walkDepths] at h
    split at h
    case isTrue =>
      split at h
      case h_1 => cases h
      case h_2 nest hget =>
        split at h
        case isTrue hleaf =>
          split at h
          case isTrue =>
            split at h
            case h_1 => cases h
            case h_2 st₁ decoded₁ heq =>
              have h1 := streamDecoder_push_valid_len _ _ _ _ heq
              have h2 := walkDepths_no_push_of_gt streamDecoder cs cr rep defl md
                fuel (depth + 1) _ _ _ _ _ _ _ (by omega) h
              subst h2
              exact Or.inr h1
          case isFalse =>
            have h2 := walkDepths_no_push_of_gt streamDecoder cs cr rep defl md
              fuel (depth + 1) _ _ _ _ _ _ _ (by omega) h
            rw [h2]
            exact Or.inr (by simp [streamDecoder])
        case isFalse => exact ih _ _ _ _ _ _ _ _ h
    case isFalse =>
      exact ih _ _ _ _ _ _ _ _ h

/-- The walk preserves the C9 invariant: follows from the master lemma, since
each pushed offset is the child count at push time and child counts only
grow. -/
theorem inv_of_walk (D : NestedDecoder St Dec Dict) (cs cr : List Nat)
    (rep defl md fuel depth : Nat) (req : Bool) (st : St) (nested : List Nested)
    (decoded : Dec) (st' : St) (nested' : List Nested) (decoded' : Dec)
    (h : walkDepths D cs cr rep defl md fuel depth req st nested decoded
      = .ok (st', nested', decoded'))
    (hInv : InvNested nested) : InvNested nested' := by
  obtain ⟨c1, _, _, c4⟩ := walkDepths_master D cs cr rep defl md _ _ _ _ _ _ _ _ _ h
  intro d n' hget'
  have hd : d < nested.length := by
    have := (List.get?_eq_some.mp hget').1
    omega
  obtain ⟨a, ha⟩ : ∃ a, nested.get? d = some a := ⟨_, List.get?_eq_get hd⟩
  obtain ⟨hchain, hlast⟩ := hInv d a ha
  have hchild : childLen nested d ≤ childLen nested' d := by
    cases hcc : nested.get? (d + 1) with
    | none =>
      have h2 : nested'.get? (d + 1) = none := by
        rw [List.get?_eq_none] at hcc ⊢
        omega
      have e1 : childLen nested d = 1 := by unfold childLen; rw [hcc]
      have e2 : childLen nested' d = 1 := by unfold childLen; rw [h2]
      rw [e1, e2]
    | some c =>
      have hcl : d + 1 < nested'.length := by
        have := (List.get?_eq_some.mp hcc).1
        omega
      obtain ⟨c', hcc'⟩ : ∃ c', nested'.get? (d + 1) = some c' :=
        ⟨_, List.get?_eq_get hcl⟩
      have e1 : childLen nested d = (c.len : Int) := by unfold childLen; rw [hcc]
      have e2 : childLen nested' d = (c'.len : Int) := by unfold childLen; rw [hcc']
      rw [e1, e2]
      rcases c4 (d + 1) c c' hcc hcc' with rfl | hcp
      · exact le_refl _
      · rw [hcp, push_len]
        exact_mod_cast Nat.le_succ c.len
  rcases c4 d a n' ha hget' with rfl | hp
  · exact ⟨hchain, fun v hv => le_trans (hlast v hv) hchild⟩
  · rcases push_offsets a (childLen nested d)
      (a.is_nullable && decide (cs.getD d 0 < defl)) with ho | ho
    · rw [hp]
      constructor
      · rw [ho]; exact hchain
      · intro v hv
        rw [ho] at hv
        exact le_trans (hlast v hv) hchild
    · rw [hp]
      constructor
      · rw [ho]
        rw [List.chain'_append]
        refine ⟨hchain, List.chain'_singleton _, ?_⟩
        intro x hx y hy
        simp only [List.head?_cons, Option.mem_def, Option.some.injEq] at hy
        subst hy
        exact hlast x hx
      · intro v hv
        rw [ho, List.getLast?_concat] at hv
        cases hv
        exact hchild

/-- Number of row-boundary pairs (repetition level 0) in a pair sequence. -/
def rowStarts (pairs : List (Nat × Nat)) : Nat :=
  pairs.countP (fun q => q.1 == 0)

/-- The outermost tracker is pushed by a walk exactly when the pair's
repetition level is 0 (its `right_level` test degenerates to `rep ≤ 0`,
since `cum_rep[0] = cum_sum[0] = 0`). -/
theorem walkDepths_head (D : NestedDecoder St Dec Dict) (cs cr : List Nat)
    (rep defl md fuel : Nat) (st : St) (n0 : Nested) (t : List Nested) (decoded : Dec)
    (st' : St) (nested' : List Nested) (decoded' : Dec)
    (hcs : cs.getD 0 0 = 0) (hcr : cr.getD 0 0 = 0)
    (h : walkDepths D cs cr rep defl md (fuel + 1) 0 false st (n0 :: t) decoded
      = .ok (st', nested', decoded')) :
    NestedState.len nested' = NestedState.len (n0 :: t) + (if rep = 0 then 1 else 0) := by
  by_cases hrep : rep = 0
  · rw [if_pos hrep]
    have hcond : (false || (decide (rep ≤ cr.getD 0 0) && decide (cs.getD 0 0 ≤ defl)))
        = true := by
      rw [hcs, hcr, hrep]
      simp
    simp only [walkDepths, hcond, eq_self_iff_true, if_true, List.get?] at h
    -- the head tracker is pushed, then the walk continues at depth 1
    have hstep :
        ∃ st₁ decoded₁,
          walkDepths D cs cr rep defl md fuel (0 + 1)
            (n0.is_required && !(n0.is_nullable && decide (cs.getD 0 0 < defl)))
            st₁
            ((n0 :: t).set 0 (n0.push (childLen (n0 :: t) 0)
              (n0.is_nullable && decide (cs.getD 0 0 < defl))))
            decoded₁
          = .ok (st', nested', decoded') := by
      split at h
      · split at h
        · split at h
          · exact Except.noConfusion h
          · exact ⟨_, _, h⟩
        · exact ⟨_, _, h⟩
      · exact ⟨_, _, h⟩
    obtain ⟨st₁, decoded₁, hrec⟩ := hstep
    obtain ⟨-, -, c3, -⟩ := walkDepths_master D cs cr rep defl md _ _ _ _ _ _ _ _ _ hrec
    have hh : nested'.get? 0 = some (n0.push (childLen (n0 :: t) 0)
        (n0.is_nullable && decide (cs.getD 0 0 < defl))) := by
      rw [c3 0 Nat.one_pos]
      rfl
    have hhd : nested'.head? = some (n0.push (childLen (n0 :: t) 0)
        (n0.is_nullable && decide (cs.getD 0 0 < defl))) := by
      rw [← List.get?_zero]
      exact hh
    simp only [NestedState.len, hhd, push_len, List.head?_cons]
  · rw [if_neg hrep]
    have hcond : (false || (decide (rep ≤ cr.getD 0 0) && decide (cs.getD 0 0 ≤ defl)))
        = false := by
      rw [hcr]
      simp [Nat.le_zero, hrep]
    simp only [walkDepths, hcond, Bool.false_eq_true, if_false] at h
    obtain ⟨-, -, c3, -⟩ := walkDepths_master D cs cr rep defl md _ _ _ _ _ _ _ _ _ h
    have hh : nested'.get? 0 = some n0 := by
      rw [c3 0 Nat.one_pos]
      rfl
    have hhd : nested'.head? = some n0 := by
      rw [← List.get?_zero]
      exact hh
    simp [NestedState.len, hhd, List.head?_cons]

/-- Master lemma about the `extend_offsets2` main loop. On success the loop
splits the page's pairs into a consumed prefix and the untouched rest, and:
tracker count and capability flags are preserved; the outermost tracker grows
by exactly the number of consumed row-boundary pairs; the C9 invariant is
preserved; a `true` result means the row budget was met exactly, with the
triggering row-boundary pair left unconsumed at the head of the source; a
`false` result means the source's size hint reached 0. -/
theorem extendOffsets2Loop_master (D : NestedDecoder St Dec Dict) (md : Nat)
    (cs cr : List Nat) (additional : Nat)
    (hcs : cs.getD 0 0 = 0) (hcr : cr.getD 0 0 = 0) :
    ∀ (pairs : List (Nat × Nat)) (declared rows : Nat) (st : St)
      (nested : List Nested) (decoded : Dec) (flag : Bool) (page' : NestedPage)
      (st' : St) (nested' : List Nested) (decoded' : Dec),
      md = nested.length →
      extendOffsets2Loop D md cs cr additional pairs declared rows st nested decoded
        = .ok (flag, page', st', nested', decoded') →
      ∃ pre, pairs = pre ++ page'.pairs ∧
        nested'.length = nested.length ∧
        nested'.map flags = nested.map flags ∧
        (nested ≠ [] → NestedState.len nested' = NestedState.len nested + rowStarts pre) ∧
        (InvNested nested → InvNested nested') ∧
        (flag = true → rows + rowStarts pre = additional ∧
          ∃ q r, page'.pairs = q :: r ∧ q.1 = 0) ∧
        (flag = false → page'.declared = 0) := by
  intro pairs
  induction pairs with
  | nil =>
    intro declared rows st nested decoded flag page' st' nested' decoded' hmd h
    simp only [extendOffsets2Loop] at h
    exact Except.noConfusion h
  | cons q rest ih =>
    obtain ⟨rep, defl⟩ := q
    intro declared rows st nested decoded flag page' st' nested' decoded' hmd h
    simp only [extendOffsets2Loop] at h
    split at h
    case isTrue hc =>
      cases h
      refine ⟨[], rfl, rfl, rfl, fun _ => by simp [rowStarts], fun hI => hI,
        fun _ => ⟨by simp [rowStarts, hc.2], (rep, defl), rest, rfl, hc.1⟩,
        fun hf => Bool.noConfusion hf⟩
    case isFalse hc =>
      split at h
      case h_1 e hw => exact Except.noConfusion h
      case h_2 st₁ nested₁ decoded₁ hw =>
        have hmaster := walkDepths_master D cs cr rep defl md md 0 false
          st nested decoded st₁ nested₁ decoded₁ hw
        have hmd1 : md = nested₁.length := hmd.trans hmaster.1.symm
        have hhead : nested ≠ [] →
            NestedState.len nested₁
              = NestedState.len nested + (if rep = 0 then 1 else 0) := by
          intro hne
          rcases nested with _ | ⟨n0, t⟩
          · exact absurd rfl hne
          have hmh : md = t.length + 1 := by simpa using hmd
          rw [hmh] at hw
          exact walkDepths_head D cs cr rep defl (t.length + 1) t.length
            st n0 t decoded st₁ nested₁ decoded₁ hcs hcr hw
        split at h
        case isTrue hdecl =>
          cases h
          refine ⟨[(rep, defl)], by simp, hmaster.1, hmaster.2.1, ?_,
            inv_of_walk D cs cr rep defl md md 0 false st nested decoded
              _ _ _ hw,
            fun hf => Bool.noConfusion hf, fun _ => hdecl⟩
          intro hne
          rw [hhead hne]
          simp only [rowStarts, List.countP_cons, List.countP_nil]
          by_cases hrep : rep = 0
          · simp [hrep]
          · simp [hrep]
        case isFalse hdecl =>
          obtain ⟨pre', e1, e2, e3, e4, e5, e6, e7⟩ :=
            ih (declared - 1) _ st₁ nested₁ decoded₁ flag page' st' nested' decoded' hmd1 h
          have hne1 : nested ≠ [] → nested₁ ≠ [] := by
            intro hne hcon
            rw [hcon] at hmaster
            have := hmaster.1
            simp at this
            exact hne (List.eq_nil_of_length_eq_zero this.symm)
          refine ⟨(rep, defl) :: pre', ?_, e2.trans hmaster.1,
            e3.trans hmaster.2.1, ?_, ?_, ?_, e7⟩
          · rw [List.cons_append, ← e1]
          · intro hne
            rw [e4 (hne1 hne), hhead hne]
            simp only [rowStarts, List.countP_cons]
            by_cases hrep : rep = 0
            · simp [hrep]; omega
            · simp [hrep]
          · intro hI
            exact e5 (inv_of_walk D cs cr rep defl md md 0 false st nested decoded
              st₁ nested₁ decoded₁ hw hI)
          · intro hf
            refine ⟨?_, (e6 hf).2⟩
            have hsum := (e6 hf).1
            simp only [rowStarts, List.countP_cons] at hsum ⊢
            by_cases hrep : rep = 0
            · simp [hrep] at hsum ⊢; omega
            · simp [hrep] at hsum ⊢; omega

/-! ### Unfolding equations for the loop, and congruence of the cumulative
arrays in the trackers' capability flags -/

theorem extendOffsets2Loop_cons_true (D : NestedDecoder St Dec Dict)
    (md : Nat) (cs cr : List Nat) (additional rep defl : Nat)
    (rest : List (Nat × Nat)) (declared rows : Nat) (st : St)
    (nested : List Nested) (decoded : Dec)
    (hc : rep = 0 ∧ rows = additional) :
    extendOffsets2Loop D md cs cr additional ((rep, defl) :: rest) declared rows
        st nested decoded
      = .ok (true, ⟨(rep, defl) :: rest, declared⟩, st, nested, decoded) := by
  simp only [extendOffsets2Loop]
  rw [if_pos hc]

theorem extendOffsets2Loop_cons_err (D : NestedDecoder St Dec Dict)
    (md : Nat) (cs cr : List Nat) (additional rep defl : Nat)
    (rest : List (Nat × Nat)) (declared rows : Nat) (st : St)
    (nested : List Nested) (decoded : Dec) (e : RError)
    (hc : ¬(rep = 0 ∧ rows = additional))
    (hw : walkDepths D cs cr rep defl md md 0 false st nested decoded = .error e) :
    extendOffsets2Loop D md cs cr additional ((rep, defl) :: rest) declared rows
        st nested decoded = .error e := by
  simp only [extendOffsets2Loop]
  rw [if_neg hc, hw]

theorem extendOffsets2Loop_cons_ok (D : NestedDecoder St Dec Dict)
    (md : Nat) (cs cr : List Nat) (additional rep defl : Nat)
    (rest : List (Nat × Nat)) (declared rows : Nat) (st : St)
    (nested : List Nested) (decoded : Dec) (st₁ : St) (nested₁ : List Nested)
    (decoded₁ : Dec)
    (hc : ¬(rep = 0 ∧ rows = additional))
    (hw : walkDepths D cs cr rep defl md md 0 false st nested decoded
      = .ok (st₁, nested₁, decoded₁)) :
    extendOffsets2Loop D md cs cr additional ((rep, defl) :: rest) declared rows
        st nested decoded
      = if declared - 1 = 0 then
          .ok (false, ⟨rest, declared - 1⟩, st₁, nested₁, decoded₁)
        else
          extendOffsets2Loop D md cs cr additional rest (declared - 1)
            (if rep = 0 then rows + 1 else rows) st₁ nested₁ decoded₁ := by
  simp only [extendOffsets2Loop]
  rw [if_neg hc, hw]

theorem cum_sum_getD_zero (nested : List Nested) : (cum_sum nested).getD 0 0 = 0 := by
  cases nested <;> rfl

theorem cum_rep_getD_zero (nested : List Nested) : (cum_rep nested).getD 0 0 = 0 := by
  cases nested <;> rfl

theorem map_sumDelta_eq (l : List Nested) :
    l.map sumDelta = (l.map flags).map (fun t => (cond t.1 1 0) + (cond t.2.1 1 0)) := by
  induction l with
  | nil => rfl
  | cons a t ih => simp [ih, sumDelta, flags]

theorem map_repDelta_eq (l : List Nested) :
    l.map repDelta = (l.map flags).map (fun t => cond t.2.1 1 0) := by
  induction l with
  | nil => rfl
  | cons a t ih => simp [ih, repDelta, flags]

theorem cum_sum_congr {n1 n2 : List Nested} (h : n1.map flags = n2.map flags) :
    cum_sum n1 = cum_sum n2 := by
  unfold cum_sum
  rw [map_sumDelta_eq, map_sumDelta_eq, h]

theorem cum_rep_congr {n1 n2 : List Nested} (h : n1.map flags = n2.map flags) :
    cum_rep n1 = cum_rep n2 := by
  unfold cum_rep
  rw [map_repDelta_eq, map_repDelta_eq, h]

/-- Fresh trackers satisfy the C9 invariant (their offset lists are empty). -/
theorem invNested_init (init : List InitNested) : InvNested (init_nested init) := by
  intro d n hget
  have hmem : n ∈ init_nested init := List.get?_mem hget
  obtain ⟨i, -, rfl⟩ := List.mem_map.mp hmem
  constructor
  · rcases i with b | b | b <;> cases b <;> simp [initNestedOne, offsetsOf]
  · intro v hv
    rcases i with b | b | b <;> cases b <;> simp [initNestedOne, offsetsOf] at hv

/-- The concrete stream decoder's valid-push never panics (it reports a
compute error on exhaustion). -/
theorem streamDecoder_no_crash (st : List Nat) (dec : List (Option Nat)) :
    streamDecoder.push_valid st dec ≠ .error .crash := by
  cases st <;> simp [streamDecoder]

/-- On a well-formed page (size hint = actual pair count) with at least one
pair, the main loop never reaches the modelled panic: the exhaustion check at
the bottom of the loop fires before the loop-top peek can fail. -/
theorem extendOffsets2Loop_no_crash (D : NestedDecoder St Dec Dict)
    (hD : ∀ st dec, D.push_valid st dec ≠ .error .crash)
    (md : Nat) (cs cr : List Nat) (additional : Nat) :
    ∀ (pairs : List (Nat × Nat)) (declared rows : Nat) (st : St)
      (nested : List Nested) (decoded : Dec),
      md = nested.length → pairs ≠ [] → declared = pairs.length →
      extendOffsets2Loop D md cs cr additional pairs declared rows st nested decoded
        ≠ .error .crash := by
  intro pairs
  induction pairs with
  | nil => intro declared rows st nested decoded _ hne _; exact absurd rfl hne
  | cons q rest ih =>
    obtain ⟨rep, defl⟩ := q
    intro declared rows st nested decoded hmd _ hdeclared h
    by_cases hc : rep = 0 ∧ rows = additional
    · rw [extendOffsets2Loop_cons_true D md cs cr additional rep defl rest declared
        rows st nested decoded hc] at h
      exact Except.noConfusion h
    · cases hw : walkDepths D cs cr rep defl md md 0 false st nested decoded with
      | error e =>
        rw [extendOffsets2Loop_cons_err D md cs cr additional rep defl rest declared
          rows st nested decoded e hc hw] at h
        cases h
        exact walkDepths_no_crash D hD cs cr rep defl md md 0 false st nested decoded
          (by omega) hw
      | ok trip =>
        obtain ⟨st₁, nested₁, decoded₁⟩ := trip
        rw [extendOffsets2Loop_cons_ok D md cs cr additional rep defl rest declared
          rows st nested decoded st₁ nested₁ decoded₁ hc hw] at h
        by_cases hdecl : declared - 1 = 0
        · rw [if_pos hdecl] at h
          exact Except.noConfusion h
        · rw [if_neg hdecl] at h
          have hmaster := walkDepths_master D cs cr rep defl md md 0 false
            st nested decoded st₁ nested₁ decoded₁ hw
          have hrest : rest ≠ [] := by
            intro hcon
            rw [hcon] at hdeclared
            simp at hdeclared
            omega
          exact ih (declared - 1) _ st₁ nested₁ decoded₁
            (hmd.trans hmaster.1.symm) hrest (by simp at hdeclared; omega) h

/-- The loop only compares `rows` and `additional` for equality, so both can
be shifted together. -/
theorem extendOffsets2Loop_shift (D : NestedDecoder St Dec Dict)
    (md : Nat) (cs cr : List Nat) (k : Nat) :
    ∀ (pairs : List (Nat × Nat)) (declared rows additional : Nat) (st : St)
      (nested : List Nested) (decoded : Dec),
      extendOffsets2Loop D md cs cr (additional + k) pairs declared (rows + k)
          st nested decoded
        = extendOffsets2Loop D md cs cr additional pairs declared rows
          st nested decoded := by
  intro pairs
  induction pairs with
  | nil => intros; rfl
  | cons q rest ih =>
    obtain ⟨rep, defl⟩ := q
    intro declared rows additional st nested decoded
    by_cases hc : rep = 0 ∧ rows = additional
    · rw [extendOffsets2Loop_cons_true D md cs cr (additional + k) rep defl rest
          declared (rows + k) st nested decoded (by omega),
        extendOffsets2Loop_cons_true D md cs cr additional rep defl rest
          declared rows st nested decoded hc]
    · have hc' : ¬(rep = 0 ∧ rows + k = additional + k) := by omega
      cases hw : walkDepths D cs cr rep defl md md 0 false st nested decoded with
      | error e =>
        rw [extendOffsets2Loop_cons_err D md cs cr (additional + k) rep defl rest
            declared (rows + k) st nested decoded e hc' hw,
          extendOffsets2Loop_cons_err D md cs cr additional rep defl rest
            declared rows st nested decoded e hc hw]
      | ok trip =>
        obtain ⟨st₁, nested₁, decoded₁⟩ := trip
        rw [extendOffsets2Loop_cons_ok D md cs cr (additional + k) rep defl rest
            declared (rows + k) st nested decoded st₁ nested₁ decoded₁ hc' hw,
          extendOffsets2Loop_cons_ok D md cs cr additional rep defl rest
            declared rows st nested decoded st₁ nested₁ decoded₁ hc hw]
        by_cases hdecl : declared - 1 = 0
        · rw [if_pos hdecl, if_pos hdecl]
        · rw [if_neg hdecl, if_neg hdecl]
          by_cases hrep : rep = 0
          · simp only [if_pos hrep]
            have he : rows + k + 1 = rows + 1 + k := by omega
            rw [he, ih]
          · simp only [if_neg hrep]
            exact ih (declared - 1) rows additional st₁ nested₁ decoded₁

/-- If the loop meets its row budget (returns `true`), re-running it with a
strictly larger budget proceeds, from the returned state, exactly like a fresh
loop entered at the recorded row count. -/
theorem extendOffsets2Loop_comp (D : NestedDecoder St Dec Dict)
    (md : Nat) (cs cr : List Nat) (additional b : Nat) (hb : 1 ≤ b) :
    ∀ (pairs : List (Nat × Nat)) (declared rows : Nat) (st : St)
      (nested : List Nested) (decoded : Dec) (page1 : NestedPage) (st1 : St)
      (n1 : List Nested) (d1 : Dec),
      rows ≤ additional →
      extendOffsets2Loop D md cs cr additional pairs declared rows st nested decoded
        = .ok (true, page1, st1, n1, d1) →
      extendOffsets2Loop D md cs cr (additional + b) pairs declared rows
          st nested decoded
        = extendOffsets2Loop D md cs cr (additional + b) page1.pairs page1.declared
          additional st1 n1 d1 := by
  intro pairs
  induction pairs with
  | nil =>
    intro declared rows st nested decoded page1 st1 n1 d1 _ h
    simp only [extendOffsets2Loop] at h
    exact Except.noConfusion h
  | cons q rest ih =>
    obtain ⟨rep, defl⟩ := q
    intro declared rows st nested decoded page1 st1 n1 d1 hrows h
    by_cases hc : rep = 0 ∧ rows = additional
    · rw [extendOffsets2Loop_cons_true D md cs cr additional rep defl rest declared
        rows st nested decoded hc] at h
      cases h
      obtain ⟨hrep0, hre⟩ := hc
      subst hre
      rfl
    · cases hw : walkDepths D cs cr rep defl md md 0 false st nested decoded with
      | error e =>
        rw [extendOffsets2Loop_cons_err D md cs cr additional rep defl rest declared
          rows st nested decoded e hc hw] at h
        exact Except.noConfusion h
      | ok trip =>
        obtain ⟨st₁, nested₁, decoded₁⟩ := trip
        rw [extendOffsets2Loop_cons_ok D md cs cr additional rep defl rest declared
          rows st nested decoded st₁ nested₁ decoded₁ hc hw] at h
        rw [extendOffsets2Loop_cons_ok D md cs cr (additional + b) rep defl rest
          declared rows st nested decoded st₁ nested₁ decoded₁ (by omega) hw]
        by_cases hdecl : declared - 1 = 0
        · rw [if_pos hdecl] at h
          simp at h
        · rw [if_neg hdecl] at h
          rw [if_neg hdecl]
          have hrows' : (if rep = 0 then rows + 1 else rows) ≤ additional := by
            by_cases hrep : rep = 0
            · simp only [if_pos hrep]
              have hne : rows ≠ additional := fun he => hc ⟨hrep, he⟩
              omega
            · simp only [if_neg hrep]
              exact hrows
          exact ih (declared - 1) _ st₁ nested₁ decoded₁ page1 st1 n1 d1 hrows' h

theorem init_nested_len (init : List InitNested) :
    NestedState.len (init_nested init) = 0 := by
  cases init with
  | nil => rfl
  | cons i t => rcases i with b | b | b <;> cases b <;> rfl

theorem extendLoop_step_err (D : NestedDecoder St Dec Dict)
    (init : List InitNested) (chunk_size : Option Nat) (fuel : Nat)
    (first_read : Bool) (items : List (List Nested × Dec)) (remaining : Nat)
    (page : NestedPage) (st : St) (nested : List Nested) (decoded : Dec)
    (e : RError)
    (hlast : items.getLast? = some (nested, decoded))
    (hw : extend_offsets2 D page st nested decoded
        (min (chunkSizeVal chunk_size - NestedState.len nested) remaining)
      = .error e) :
    extendLoop D init chunk_size (fuel + 1) first_read items remaining page st
      = (.error e, items.dropLast, remaining) := by
  simp only [extendLoop, hlast, hw]

theorem extendLoop_step_ok (D : NestedDecoder St Dec Dict)
    (init : List InitNested) (chunk_size : Option Nat) (fuel : Nat)
    (first_read : Bool) (items : List (List Nested × Dec)) (remaining : Nat)
    (page : NestedPage) (st : St) (nested : List Nested) (decoded : Dec)
    (isf : Bool) (page' : NestedPage) (st' : St) (nested' : List Nested)
    (decoded' : Dec)
    (hlast : items.getLast? = some (nested, decoded))
    (hw : extend_offsets2 D page st nested decoded
        (min (chunkSizeVal chunk_size - NestedState.len nested) remaining)
      = .ok (isf, page', st', nested', decoded')) :
    extendLoop D init chunk_size (fuel + 1) first_read items remaining page st
      = if page'.len = 0 then
          (.ok (first_read || isf), items.dropLast ++ [(nested', decoded')],
            remaining - (NestedState.len nested' - NestedState.len nested))
        else if (isf && decide (remaining
            - (NestedState.len nested' - NestedState.len nested) = 0)) = true then
          (.ok (first_read || isf), items.dropLast ++ [(nested', decoded')],
            remaining - (NestedState.len nested' - NestedState.len nested))
        else
          extendLoop D init chunk_size fuel (first_read || isf)
            (items.dropLast ++ [(nested', decoded')]
              ++ [(init_nested init, D.with_capacity 0)])
            (remaining - (NestedState.len nested' - NestedState.len nested))
            page' st' := by
  simp only [extendLoop, hlast, hw]

/-- Queue-growth bound for the driver loop (when the chunk size is not 0):
each new chunk entry started beyond the first costs at least one consumed
row-boundary pair, so the queue grows by at most `1 + rowStarts page.pairs`
within one `extend` call — and when the loop is entered with a fresh
(strictly-below-capacity) back entry, by at most `rowStarts page.pairs`. -/
theorem extendLoop_bound_core (D : NestedDecoder St Dec Dict)
    (init : List InitNested) (chunk_size : Option Nat)
    (hchunk : 1 ≤ chunkSizeVal chunk_size) :
    ∀ (fuel : Nat) (first_read : Bool) (items : List (List Nested × Dec))
      (remaining : Nat) (page : NestedPage) (st : St),
      ((extendLoop D init chunk_size fuel first_read items remaining page st).2.1.length
        ≤ items.length + 1 + rowStarts page.pairs)
      ∧ (∀ last, items.getLast? = some last →
          NestedState.len last.1 < chunkSizeVal chunk_size →
          (extendLoop D init chunk_size fuel first_read items remaining page st).2.1.length
            ≤ items.length + rowStarts page.pairs) := by
  intro fuel
  induction fuel with
  | zero =>
    intro first_read items remaining page st
    constructor
    · simp only [extendLoop]
      omega
    · intro last _ _
      simp only [extendLoop]
      omega
  | succ fuel ih =>
    intro first_read items remaining page st
    cases hlast : items.getLast? with
    | none =>
      have hnil : items = [] := by
        cases items with
        | nil => rfl
        | cons a t => simp at hlast
      subst hnil
      constructor
      · simp only [extendLoop, List.getLast?_nil, List.nil_append]
        have := (ih first_read [(init_nested init, D.with_capacity 0)]
          remaining page st).2 (init_nested init, D.with_capacity 0) rfl
          (by rw [init_nested_len]; omega)
        simpa using this
      · intro last hl _
        simp at hl
    | some last =>
      obtain ⟨nested, decoded⟩ := last
      have hne : items ≠ [] := by
        intro hcon
        rw [hcon] at hlast
        simp at hlast
      have hlen_pos : 1 ≤ items.length := by
        cases items with
        | nil => exact absurd rfl hne
        | cons a t => simp
      -- one common analysis of the loop step, giving both bounds at once
      have step :
          (extendLoop D init chunk_size (fuel + 1) first_read items remaining page st).2.1.length
            ≤ items.length + 1 + rowStarts page.pairs
          ∧ (NestedState.len nested < chunkSizeVal chunk_size →
            (extendLoop D init chunk_size (fuel + 1) first_read items remaining page st).2.1.length
              ≤ items.length + rowStarts page.pairs) := by
        cases hw : extend_offsets2 D page st nested decoded
            (min (chunkSizeVal chunk_size - NestedState.len nested) remaining) with
        | error e =>
          rw [extendLoop_step_err D init chunk_size fuel first_read items remaining
            page st nested decoded e hlast hw]
          simp only [List.length_dropLast]
          constructor
          · omega
          · intro _; omega
        | ok res =>
          obtain ⟨isf, page', st', nested', decoded'⟩ := res
          rw [extendLoop_step_ok D init chunk_size fuel first_read items remaining
            page st nested decoded isf page' st' nested' decoded' hlast hw]
          obtain ⟨pre, e1, -, -, -, -, e6, e7⟩ :=
            extendOffsets2Loop_master D nested.length (cum_sum nested)
              (cum_rep nested)
              (min (chunkSizeVal chunk_size - NestedState.len nested) remaining)
              (cum_sum_getD_zero nested) (cum_rep_getD_zero nested)
              page.pairs page.declared 0 st nested decoded isf page' st' nested'
              decoded' rfl hw
          have hsplit : rowStarts page.pairs
              = rowStarts pre + rowStarts page'.pairs := by
            rw [e1]
            simp [rowStarts, List.countP_append]
          by_cases hp0 : page'.len = 0
          · rw [if_pos hp0]
            simp only [List.length_append, List.length_dropLast, List.length_cons,
              List.length_nil]
            constructor
            · omega
            · intro _; omega
          · rw [if_neg hp0]
            -- a `false` flag forces the size hint to 0: the loop must continue
            -- with `isf = true`
            have hisf : isf = true := by
              cases isf with
              | true => rfl
              | false =>
                exact absurd (e7 rfl) hp0
            subst hisf
            by_cases hrem : remaining - (NestedState.len nested' - NestedState.len nested) = 0
            · rw [if_pos (by simp [hrem])]
              simp only [List.length_append, List.length_dropLast, List.length_cons,
                List.length_nil]
              constructor
              · omega
              · intro _; omega
            · rw [if_neg (by simp [hrem])]
              -- continue: a fresh chunk entry is pushed
              have hfresh := (ih (first_read || true)
                ((items.dropLast ++ [(nested', decoded')])
                  ++ [(init_nested init, D.with_capacity 0)])
                (remaining - (NestedState.len nested' - NestedState.len nested))
                page' st').2 (init_nested init, D.with_capacity 0)
                (by simp) (by rw [init_nested_len]; omega)
            -- budget was met exactly: `rowStarts pre = additional`
              have hadd := (e6 rfl).1
              constructor
              · refine le_trans hfresh ?_
                simp only [List.length_append, List.length_dropLast,
                  List.length_cons, List.length_nil]
                omega
              · intro hfr
                -- fresh back entry: additional ≥ 1, so at least one
                -- row-boundary pair was consumed
                have hadd1 : 1 ≤ min (chunkSizeVal chunk_size
                    - NestedState.len nested) remaining := by
                  omega
                refine le_trans hfresh ?_
                simp only [List.length_append, List.length_dropLast,
                  List.length_cons, List.length_nil]
                omega
      exact ⟨step.1, fun l hl hf => by
        cases hl
        exact step.2 hf⟩

/-- Claim C5, amended: the queue holds at most 2 entries when `extend` is
entered (the pull operation drains completed chunks first — its own
debug-assert), but at exit the bound 2 fails: the queue may gain one entry
per chunk completed inside the page, bounded by
`entry + 1 + (row boundaries in the page)`. -/
theorem claim_C5_amended (D : NestedDecoder St Dec Dict) (page : DataPage)
    (init : List InitNested) (items : List (List Nested × Dec))
    (dict : Option Dict) (remaining : Nat) (chunk_size : Option Nat)
    (hchunk : 1 ≤ chunkSizeVal chunk_size) :
    (extend D page init items dict remaining chunk_size).2.1.length
      ≤ items.length + 1 + rowStarts page.pairs := by
  unfold extend
  cases hb : D.build_state page dict with
  | error e =>
    simp only
    omega
  | ok vs =>
    exact (extendLoop_bound_core D init chunk_size hchunk (page.pairs.length + 2)
      false items remaining (NestedPage.try_new page) vs).1

/-- Witness for C5's amended theorem: the 3-row page with chunk size 1 ends
with 3 queued entries, within the amended bound 0 + 1 + 3. -/
theorem claim_C5_witness :
    (extend streamDecoder ⟨[(0, 1), (0, 1), (0, 1)], 3, [1, 2, 3]⟩
        [.primitive true] [] Option.none 10 (Option.some 1)).2.1.length
      ≤ ([] : List (List Nested × List (Option Nat))).length + 1
        + rowStarts [(0, 1), (0, 1), (0, 1)] :=
  claim_C5_amended streamDecoder ⟨[(0, 1), (0, 1), (0, 1)], 3, [1, 2, 3]⟩
    [.primitive true] [] Option.none 10 (Option.some 1) (by decide)

/-! ### Claim theorems -/

/-- Claim C1, counterexample: on the schema `[List(nullable),
Primitive(nullable)]` with level pairs `[(0,3),(1,3),(0,2),(0,1)]` and a large
row budget, the reconstruction algorithm does NOT produce the claimed
trackers: the list tracker's offsets come out `[0,2,3]`, not `[0,2,2]` (and
there are 3 rows, validity `[true,true,true]`, leaf validity
`[true,true,false]`). -/
theorem claim_C1_counterexample :
    extend_offsets2 streamDecoder ⟨[(0, 3), (1, 3), (0, 2), (0, 1)], 4⟩ [10, 11]
        (init_nested [.list true, .primitive true]) [] 100
      = .ok (false, ⟨[], 0⟩, [],
          [.optional [true, true, true] [0, 2, 3], .primitive true 3],
          [some 10, some 11, none])
    ∧ ([0, 2, 3] : List Int) ≠ [0, 2, 2] :=
  ⟨rfl, by decide⟩

/-- Claim C1, amended: on that page the algorithm consumes all four pairs and
produces 3 rows — row 0 a valid 2-element list `[valid, valid]`, row 1 a valid
singleton `[null]`, row 2 a valid empty list — with offsets `[0,2,3]`, list
validity `[true,true,true]`, leaf validity `[true,true,false]` (the last pair,
definition level 1, is an empty-but-present list and causes no leaf push). -/
theorem claim_C1_amended :
    extend_offsets2 streamDecoder ⟨[(0, 3), (1, 3), (0, 2), (0, 1)], 4⟩ [10, 11]
        (init_nested [.list true, .primitive true]) [] 100
      = .ok (false, ⟨[], 0⟩, [],
          [.optional [true, true, true] [0, 2, 3], .primitive true 3],
          [some 10, some 11, none])
    ∧ NestedState.len [Nested.optional [true, true, true] [0, 2, 3], .primitive true 3] = 3 :=
  ⟨rfl, rfl⟩

/-- Claim C2, counterexample: a consumed level pair can cause ZERO leaf pushes.
On schema `[List(nullable), Primitive(nullable)]` the single pair `(0,0)` (a
null list) is consumed, yet the leaf accumulator stays empty — not the one
push per pair the claim requires. -/
theorem claim_C2_counterexample :
    extend_offsets2 streamDecoder ⟨[(0, 0)], 1⟩ [10]
        (init_nested [.list true, .primitive true]) [] 100
      = .ok (false, ⟨[], 0⟩, [10],
          [.optional [false] [0], .primitive true 0], ([] : List (Option Nat)))
    ∧ ([] : List (Option Nat)).length ≠ 1 :=
  ⟨rfl, by decide⟩

/-- Claim C5, counterexample: the pending-chunk queue is NOT bounded by 2 at
call boundaries. With chunk size 1 and a single 3-row data page, `extend`
returns with 3 completed entries in the queue. -/
theorem claim_C5_counterexample :
    (extend streamDecoder ⟨[(0, 1), (0, 1), (0, 1)], 3, [1, 2, 3]⟩
        [.primitive true] [] Option.none 10 (Option.some 1)).2.1.length = 3
    ∧ ¬ (3 ≤ 2) :=
  ⟨rfl, by decide⟩

/-- Claim C6, counterexample: when the level-pair source yields none where a
pair is expected mid-loop (its size hint still reports pending values, as
happens when a fallible level decoder errors out), the algorithm PANICS at the
loop-top `peek().unwrap()` — it does not return the `ComputeError` of the
(unreachable) bail. -/
theorem claim_C6_counterexample :
    extend_offsets2 streamDecoder ⟨[(0, 3)], 2⟩ [10]
        (init_nested [.list true, .primitive true]) [] 100
      = .error .crash
    ∧ RError.crash ≠ RError.compute "cannot read rep/def levels" :=
  ⟨rfl, by decide⟩

/-- Claim C7 (confirmed): a dictionary page encountered by the pull operation
repopulates the dictionary state, creates/modifies no queue entry, leaves the
remaining-row budget alone, and yields "need more pages". -/
theorem claim_C7 (D : NestedDecoder St Dec Dict) (init : List InitNested)
    (chunk_size : Option Nat) (dp : DictPage) (restP : List (Except RError Page))
    (items : List (List Nested × Dec)) (dict : Option Dict) (remaining : Nat)
    (h : items.length ≤ 1) :
    next D init chunk_size ⟨(.ok (Page.dict dp)) :: restP, items, dict, remaining⟩
      = (.more, ⟨restP, items, some (D.deserialize_dict dp), remaining⟩) := by
  rcases items with _ | ⟨a, _ | ⟨b, t⟩⟩
  · rfl
  · rfl
  · simp at h

/-- Witness for C7. -/
theorem claim_C7_witness :
    next streamDecoder [] Option.none
        ⟨[.ok (Page.dict ⟨[7]⟩)], [], Option.none, 5⟩
      = (.more, ⟨[], [], some [7], 5⟩) :=
  claim_C7 streamDecoder [] Option.none ⟨[7]⟩ [] [] Option.none 5 (by decide)

/-- Witness for C2's amended theorem: the pair `(0,3)` on schema
`[List(nullable), Primitive(nullable)]` causes exactly one leaf push. -/
theorem claim_C2_witness :
    ([some 10] : List (Option Nat)).length = ([] : List (Option Nat)).length
      ∨ ([some 10] : List (Option Nat)).length = ([] : List (Option Nat)).length + 1 :=
  claim_C2_amended [0, 2, 3] [0, 1, 1] 0 3 2 2 0 false [10, 11]
    (init_nested [.list true, .primitive true]) [] [11]
    [.optional [true] [0], .primitive true 1] [some 10] rfl

/-- Claim C3 (confirmed): whenever the reconstruction algorithm reports
"chunk fully read", the consumed prefix contains exactly `additional`
row-boundary pairs and the triggering row-boundary pair is still the next
pair of the level-pair source, unconsumed. -/
theorem claim_C3 (D : NestedDecoder St Dec Dict) (page : NestedPage) (st : St)
    (nested : List Nested) (decoded : Dec) (additional : Nat)
    (page' : NestedPage) (st' : St) (nested' : List Nested) (decoded' : Dec)
    (h : extend_offsets2 D page st nested decoded additional
      = .ok (true, page', st', nested', decoded')) :
    ∃ pre, page.pairs = pre ++ page'.pairs ∧ rowStarts pre = additional ∧
      ∃ q r, page'.pairs = q :: r ∧ q.1 = 0 := by
  unfold extend_offsets2 at h
  obtain ⟨pre, e1, -, -, -, -, e6, -⟩ :=
    extendOffsets2Loop_master D nested.length (cum_sum nested) (cum_rep nested)
      additional (cum_sum_getD_zero nested) (cum_rep_getD_zero nested)
      page.pairs page.declared 0 st nested decoded true page' st' nested' decoded'
      rfl h
  obtain ⟨hsum, hq⟩ := e6 rfl
  exact ⟨pre, e1, by omega, hq⟩

/-- Witness for C3. -/
theorem claim_C3_witness :
    ∃ pre, ([(0, 3), (1, 3), (0, 3)] : List (Nat × Nat))
        = pre ++ (⟨[(0, 3)], 1⟩ : NestedPage).pairs ∧
      rowStarts pre = 1 ∧
      ∃ q r, (⟨[(0, 3)], 1⟩ : NestedPage).pairs = q :: r ∧ q.1 = 0 :=
  claim_C3 streamDecoder ⟨[(0, 3), (1, 3), (0, 3)], 3⟩ [10, 11, 12]
    (init_nested [.list true, .primitive true]) [] 1 ⟨[(0, 3)], 1⟩ [12]
    [.optional [true] [0], .primitive true 2] [some 10, some 11] rfl

/-- Claim C4 (confirmed): chunking does not change results. If a run with row
budget `a` stops at a row boundary ("fully read"), then a single run with
budget `a + b` (`b ≥ 1`) produces exactly what resuming from the returned
state with budget `b` produces — same trackers, same leaf accumulator, same
source position. -/
theorem claim_C4 (D : NestedDecoder St Dec Dict) (page : NestedPage) (st : St)
    (nested : List Nested) (decoded : Dec) (a b : Nat) (page1 : NestedPage)
    (st1 : St) (n1 : List Nested) (d1 : Dec) (hb : 1 ≤ b)
    (h : extend_offsets2 D page st nested decoded a = .ok (true, page1, st1, n1, d1)) :
    extend_offsets2 D page st nested decoded (a + b)
      = extend_offsets2 D page1 st1 n1 d1 b := by
  unfold extend_offsets2 at h ⊢
  obtain ⟨pre, -, e2, e3, -, -, -, -⟩ :=
    extendOffsets2Loop_master D nested.length (cum_sum nested) (cum_rep nested) a
      (cum_sum_getD_zero nested) (cum_rep_getD_zero nested) page.pairs page.declared
      0 st nested decoded true page1 st1 n1 d1 rfl h
  rw [e2, cum_sum_congr e3, cum_rep_congr e3]
  rw [extendOffsets2Loop_comp D nested.length (cum_sum nested) (cum_rep nested) a b hb
    page.pairs page.declared 0 st nested decoded page1 st1 n1 d1 (Nat.zero_le a) h]
  have hs := extendOffsets2Loop_shift D nested.length (cum_sum nested) (cum_rep nested)
    a page1.pairs page1.declared 0 b st1 n1 d1
  rw [Nat.zero_add] at hs
  rw [Nat.add_comm a b]
  exact hs

/-- Witness for C4: splitting budget 3 as 1 + 2 on the 4-pair page. -/
theorem claim_C4_witness :
    extend_offsets2 streamDecoder ⟨[(0, 3), (1, 3), (0, 2), (0, 1)], 4⟩ [10, 11]
        (init_nested [.list true, .primitive true]) [] (1 + 2)
      = extend_offsets2 streamDecoder ⟨[(0, 2), (0, 1)], 2⟩ []
          [.optional [true] [0], .primitive true 2] [some 10, some 11] 2 :=
  claim_C4 streamDecoder ⟨[(0, 3), (1, 3), (0, 2), (0, 1)], 4⟩ [10, 11]
    (init_nested [.list true, .primitive true]) [] 1 2 ⟨[(0, 2), (0, 1)], 2⟩ []
    [.optional [true] [0], .primitive true 2] [some 10, some 11] (by decide) rfl

/-- Claim C9 (confirmed): the reconstruction algorithm preserves the tracker
invariant — every tracker's offsets sequence is non-decreasing (with the last
offset bounded by the child count) — and grows the outermost tracker by
exactly the number of consumed row-boundary pairs, i.e. the rows yielded. -/
theorem claim_C9 (D : NestedDecoder St Dec Dict) (page : NestedPage) (st : St)
    (nested : List Nested) (decoded : Dec) (additional : Nat) (flag : Bool)
    (page' : NestedPage) (st' : St) (nested' : List Nested) (decoded' : Dec)
    (hne : nested ≠ []) (hInv : InvNested nested)
    (h : extend_offsets2 D page st nested decoded additional
      = .ok (flag, page', st', nested', decoded')) :
    InvNested nested' ∧
    ∃ pre, page.pairs = pre ++ page'.pairs ∧
      NestedState.len nested' = NestedState.len nested + rowStarts pre := by
  unfold extend_offsets2 at h
  obtain ⟨pre, e1, -, -, e4, e5, -, -⟩ :=
    extendOffsets2Loop_master D nested.length (cum_sum nested) (cum_rep nested)
      additional (cum_sum_getD_zero nested) (cum_rep_getD_zero nested)
      page.pairs page.declared 0 st nested decoded flag page' st' nested' decoded'
      rfl h
  exact ⟨e5 hInv, pre, e1, e4 hne⟩

/-- Witness for C9. -/
theorem claim_C9_witness :
    InvNested [Nested.optional [true] [0], .primitive true 1] ∧
    ∃ pre, ([(0, 3)] : List (Nat × Nat)) = pre ++ (⟨[], 0⟩ : NestedPage).pairs ∧
      NestedState.len [Nested.optional [true] [0], .primitive true 1]
        = NestedState.len (init_nested [.list true, .primitive true]) + rowStarts pre :=
  claim_C9 streamDecoder ⟨[(0, 3)], 1⟩ [5] (init_nested [.list true, .primitive true])
    [] 7 false ⟨[], 0⟩ [] [.optional [true] [0], .primitive true 1] [some 5]
    (by decide) (invNested_init [.list true, .primitive true]) rfl

/-- Claim C10 (confirmed): the reconstruction algorithm panics on a page with
no level pairs (the unconditional `peek().unwrap()` at loop entry), and for a
well-formed page with at least one pair the loop-top peek never fails — the
exhaustion check at the loop bottom returns first. -/
theorem claim_C10 :
    (∀ (declared : Nat) (st : List Nat) (nested : List Nested)
        (decoded : List (Option Nat)) (additional : Nat),
      extend_offsets2 streamDecoder ⟨[], declared⟩ st nested decoded additional
        = .error .crash)
    ∧ (∀ (page : NestedPage) (st : List Nat) (nested : List Nested)
        (decoded : List (Option Nat)) (additional : Nat),
        page.pairs ≠ [] → page.declared = page.pairs.length →
        extend_offsets2 streamDecoder page st nested decoded additional
          ≠ .error .crash) := by
  constructor
  · intro declared st nested decoded additional
    rfl
  · intro page st nested decoded additional hne hdecl
    exact extendOffsets2Loop_no_crash streamDecoder streamDecoder_no_crash
      nested.length (cum_sum nested) (cum_rep nested) additional page.pairs
      page.declared 0 st nested decoded rfl hne hdecl

/-- Witness for C10. -/
theorem claim_C10_witness :
    extend_offsets2 streamDecoder ⟨[], 0⟩ []
        (init_nested [.list true, .primitive true]) ([] : List (Option Nat)) 5
      = .error .crash
    ∧ extend_offsets2 streamDecoder ⟨[(0, 3)], 1⟩ [5]
        (init_nested [.list true, .primitive true]) ([] : List (Option Nat)) 7
      ≠ .error .crash :=
  ⟨claim_C10.1 0 [] (init_nested [.list true, .primitive true]) [] 5,
   claim_C10.2 ⟨[(0, 3)], 1⟩ [5] (init_nested [.list true, .primitive true]) [] 7
     (by decide) rfl⟩

/-- Claim C6, amended: when the level-pair source yields none where a pair is
expected mid-loop, the algorithm panics at the loop-top `peek().unwrap()` (the
`polars_bail!` decode error after it is unreachable, as peeking precedes
consumption); errors the driver does produce propagate unchanged through the
pull operation as an error result, with no internal retry. -/
theorem claim_C6_amended :
    (∀ k : Nat,
      extend_offsets2 streamDecoder ⟨[(0, 3)], k + 2⟩ [10]
        (init_nested [.list true, .primitive true]) [] 100 = .error .crash)
    ∧ (∀ (St Dec Dict : Type) (D : NestedDecoder St Dec Dict)
        (init : List InitNested) (chunk_size : Option Nat) (p : DataPage)
        (restP : List (Except RError Page)) (items : List (List Nested × Dec))
        (dict : Option Dict) (remaining : Nat) (e : RError)
        (items' : List (List Nested × Dec)) (rem' : Nat),
        items.length ≤ 1 →
        extend D p init items dict remaining chunk_size = (.error e, items', rem') →
        next D init chunk_size ⟨(.ok (Page.data p)) :: restP, items, dict, remaining⟩
          = (.some (.error e), ⟨restP, items', dict, rem'⟩)) := by
  constructor
  · intro k
    rfl
  · intro St2 Dec2 Dict2 D init chunk_size p restP items dict remaining e items' rem'
      hlen hext
    rcases items with _ | ⟨a, _ | ⟨b, t⟩⟩
    · simp only [next, hext]
    · simp only [next, hext]
    · simp at hlen

/-- Witness for C6's amended theorem. -/
theorem claim_C6_witness :
    extend_offsets2 streamDecoder ⟨[(0, 3)], 0 + 2⟩ [10]
        (init_nested [.list true, .primitive true]) [] 100 = .error .crash
    ∧ next streamDecoder [.list true, .primitive true] Option.none
        ⟨[.ok (Page.data ⟨[(0, 3)], 1, []⟩)], [], Option.none, 10⟩
      = (.some (.error (.compute "values stream exhausted")),
          ⟨[], [], Option.none, 10⟩) :=
  ⟨claim_C6_amended.1 0,
   claim_C6_amended.2 (List Nat) (List (Option Nat)) (List Nat) streamDecoder
     [.list true, .primitive true] Option.none ⟨[(0, 3)], 1, []⟩ [] [] Option.none 10
     (.compute "values stream exhausted") [] 10 (by decide) rfl⟩

/-- Claim C8 (confirmed): entered with more than one queued entry, the pull
operation returns the front entry and touches nothing else — pages iterator,
remaining budget, dictionary state and the rest of the queue are unchanged. -/
theorem claim_C8 (D : NestedDecoder St Dec Dict) (init : List InitNested)
    (chunk_size : Option Nat) (pages : List (Except RError Page))
    (it₁ it₂ : List Nested × Dec) (restI : List (List Nested × Dec))
    (dict : Option Dict) (remaining : Nat) :
    next D init chunk_size ⟨pages, it₁ :: it₂ :: restI, dict, remaining⟩
      = (.some (.ok it₁), ⟨pages, it₂ :: restI, dict, remaining⟩) :=
  rfl

end NestedUtils
